import Mathlib

/-!
# Verification of the outline-ss-server AEAD stream codec and cipher registry

This development is a shallow embedding of the core of
`shadowsocks/stream.go` and `shadowsocks/cipher_list.go`:

* the encrypting `shadowsocksWriter` (its `readFrom` loop, `Write`,
  `LazyWrite`, `Flush`, the `increment`/`isZero` nonce-counter helpers);
* the decrypting `chunkReader` (`init`, `readMessage`, `ReadChunk`);
* the cipher registry (`matchesIP`, `SafeSnapshotForClientIP`,
  `SafeMarkUsedByClientIP`).

Bytes are modelled as `Nat` (each byte taken mod 256 where arithmetic occurs),
byte slices as `List Nat`, an `io.Reader` source as the list of byte fragments
successive `Read` calls deliver, and the underlying sink as the list of slices
passed to its `Write` method.  The AEAD primitive (provided to this code by
`shadowaead.Cipher` / `cipher.AEAD`, outside this repository) is abstracted as
a structure carrying the seal/open functions and the three contracts every
AEAD satisfies: sealing adds exactly `Overhead` bytes, opening a sealed
message returns the plaintext, and an opened plaintext is `Overhead` shorter
than its ciphertext.
-/

/-- `payloadSizeMask` from stream.go: the maximum payload size (0x3FFF). -/
def payloadSizeMask : Nat := 0x3FFF

/-- `binary.BigEndian.PutUint16`: the two big-endian bytes of `n`
(after the `uint16` truncation performed by the Go cast). -/
def be16 (n : Nat) : List Nat := [n / 256 % 256, n % 256]

/-- `binary.BigEndian.Uint16`: read two big-endian bytes. -/
def getBE16 (b : List Nat) : Nat := 256 * b.getD 0 0 + b.getD 1 0

/-- `increment` from stream.go: increment a little-endian encoded unsigned
integer, wrapping around on overflow.  The Go loop walks the bytes from index
0; `b[i]++` overflows a `byte` to 0, in which case the loop carries on. -/
def increment : List Nat → List Nat
  | [] => []
  | b :: rest =>
    let b1 := (b + 1) % 256
    if b1 = 0 then b1 :: increment rest else b1 :: rest

/-- `isZero` from stream.go: true iff every byte is zero. -/
def isZero (b : List Nat) : Bool := b.all (· == 0)

/-- Little-endian value of `n` bytes encoding `k` (mod `2^(8n)`). -/
def natToLE : Nat → Nat → List Nat
  | 0, _ => []
  | n + 1, k => k % 256 :: natToLE n (k / 256)

/-- Numeric value of a little-endian byte string. -/
def toNatLE : List Nat → Nat
  | [] => 0
  | b :: rest => b + 256 * toNatLE rest

theorem natToLE_length (n k : Nat) : (natToLE n k).length = n := by
  induction n generalizing k with
  | zero => rfl
  | succ n ih => simp [natToLE, ih]

theorem natToLE_zero (n : Nat) : natToLE n 0 = List.replicate n 0 := by
  induction n with
  | zero => rfl
  | succ n ih => simp [natToLE, ih, List.replicate_succ]

/-- Splitting a modulus `256 * m` (specialisation of `Nat.mod_mul`). -/
theorem mod_mul_256 (k m : Nat) : k % (256 * m) = k % 256 + 256 * (k / 256 % m) :=
  Nat.mod_mul

theorem natToLE_mod (n k : Nat) : natToLE n (k % 2 ^ (8 * n)) = natToLE n k := by
  induction n generalizing k with
  | zero => rfl
  | succ n ih =>
    have h2 : 2 ^ (8 * (n + 1)) = 256 * 2 ^ (8 * n) := by ring
    have hpos : 0 < 2 ^ (8 * n) := Nat.pos_pow_of_pos _ (by omega)
    simp only [natToLE, h2, mod_mul_256 k (2 ^ (8 * n))]
    have hh : (k % 256 + 256 * (k / 256 % 2 ^ (8 * n))) % 256 = k % 256 := by omega
    have ht : (k % 256 + 256 * (k / 256 % 2 ^ (8 * n))) / 256 = k / 256 % 2 ^ (8 * n) := by
      omega
    rw [hh, ht, ih (k / 256)]

theorem increment_natToLE (n k : Nat) : increment (natToLE n k) = natToLE n (k + 1) := by
  induction n generalizing k with
  | zero => rfl
  | succ n ih =>
    simp only [natToLE, increment]
    by_cases h : k % 256 = 255
    · have h1 : (k % 256 + 1) % 256 = 0 := by omega
      rw [if_pos h1, ih (k / 256)]
      have h2 : (k + 1) % 256 = 0 := by omega
      have h3 : (k + 1) / 256 = k / 256 + 1 := by omega
      simp [h2, h3]
    · have h1 : (k % 256 + 1) % 256 = k % 256 + 1 := by omega
      rw [h1, if_neg (by omega)]
      have h2 : (k + 1) % 256 = k % 256 + 1 := by omega
      have h3 : (k + 1) / 256 = k / 256 := by omega
      simp [h2, h3]

theorem toNatLE_natToLE (n k : Nat) : toNatLE (natToLE n k) = k % 2 ^ (8 * n) := by
  induction n generalizing k with
  | zero => simp [natToLE, toNatLE]; omega
  | succ n ih =>
    have h2 : 2 ^ (8 * (n + 1)) = 256 * 2 ^ (8 * n) := by ring
    simp only [natToLE, toNatLE, ih, h2, mod_mul_256 k (2 ^ (8 * n))]

theorem isZero_natToLE (n k : Nat) :
    isZero (natToLE n k) = true ↔ k % 2 ^ (8 * n) = 0 := by
  induction n generalizing k with
  | zero => simp [natToLE, isZero]; omega
  | succ n ih =>
    have h2 : 2 ^ (8 * (n + 1)) = 256 * 2 ^ (8 * n) := by ring
    have hpos : 0 < 2 ^ (8 * n) := Nat.pos_pow_of_pos _ (by omega)
    simp only [natToLE, isZero, List.all_cons, Bool.and_eq_true, beq_iff_eq]
    rw [show (natToLE n (k / 256)).all (· == 0) = isZero (natToLE n (k / 256)) from rfl,
      ih (k / 256), h2, mod_mul_256 k (2 ^ (8 * n))]
    omega

theorem getBE16_be16 (n : Nat) (h : n < 65536) : getBE16 (be16 n) = n := by
  simp only [be16, getBE16, List.getD]
  simp
  omega

theorem land_mask (x : Nat) : x &&& payloadSizeMask = x % 16384 := by
  have h : payloadSizeMask = 2 ^ 14 - 1 := by norm_num [payloadSizeMask]
  rw [h, Nat.and_pow_two_sub_one_eq_mod]

/-- The AEAD primitive (Go's `cipher.AEAD` as produced by
`shadowaead.Cipher.Encrypter`/`Decrypter`), abstracted: `seal nonce plaintext`
is `Seal(dst, nonce, plaintext, nil)`, `unseal nonce ciphertext` is
`Open(dst, nonce, ciphertext, nil)` (`none` = authentication failure).  The
three laws are the AEAD contract this code relies on. -/
structure AEAD where
  nonceSize : Nat
  overhead : Nat
  Seal : List Nat → List Nat → List Nat
  Open : List Nat → List Nat → Option (List Nat)
  seal_length : ∀ n p, (Seal n p).length = p.length + overhead
  open_seal : ∀ n p, Open n (Seal n p) = some p
  open_length : ∀ n c pt, Open n c = some pt → pt.length + overhead = c.length

/-- A concrete executable AEAD used to instantiate witnesses: the "tag" is 16
zero bytes and opening accepts any ciphertext long enough to hold a tag. -/
def toyAead : AEAD where
  nonceSize := 12
  overhead := 16
  Seal := fun _ p => p ++ List.replicate 16 0
  Open := fun _ c => if 16 ≤ c.length then some (c.take (c.length - 16)) else none
  seal_length := by intro n p; simp
  open_seal := by
    intro n p
    simp only []
    rw [if_pos (by simp)]
    simp
  open_length := by
    intro n c pt h
    simp only [] at h
    split at h
    · next hle =>
      obtain rfl : c.take (c.length - 16) = pt := by simpa using h
      simp [List.length_take]
      omega
    · exact absurd h (by simp)

/-- The error kinds a `chunkReader` read can surface: `io.EOF`,
`io.ErrUnexpectedEOF`, an AEAD open failure ("failed to decrypt"), and the
unreachable `io.ErrShortBuffer` branch. -/
inductive RErr where
  | eof
  | unexpectedEof
  | decryptFailed
  | shortBuf
deriving DecidableEq, Repr

/-- `io.ReadFull` on a source that is the byte list `s` followed by EOF:
returns the `n` bytes read and the remaining source, `io.EOF` if the source
is exhausted before any byte is read, and `io.ErrUnexpectedEOF` if it ends
after some but not all `n` bytes. -/
def readFull (n : Nat) (s : List Nat) : Except RErr (List Nat × List Nat) :=
  if n ≤ s.length then .ok (s.take n, s.drop n)
  else if s.length = 0 then .error .eof
  else .error .unexpectedEof

/-- `chunkReader.readMessage`: read exactly `n` (= `len(buf)`) bytes, open
them in place, and advance the nonce counter.  Returns the decrypted
plaintext, the advanced counter and the remaining source.  (In the Go code
the counter is also incremented when `Open` fails; the failure aborts the
stream, so the counter's value is unobservable in that case and the model
reports only the error.) -/
def readMessage (A : AEAD) (ctr : List Nat) (n : Nat) (s : List Nat) :
    Except RErr (List Nat × List Nat × List Nat) :=
  match readFull n s with
  | .error e => .error e
  | .ok (buf, rest) =>
    match A.Open ctr buf with
    | none => .error .decryptFailed
    | some pt => .ok (pt, increment ctr, rest)

/-- `chunkReader.ReadChunk` on an initialized reader (salt already consumed,
AEAD derived, counter at `ctr`): read and open the `2 + Overhead` size
message, mask the 16-bit length with `payloadSizeMask`, then read and open
the `size + Overhead` payload message, turning a clean EOF there into
`io.ErrUnexpectedEOF`.  Returns the payload (`payloadBuf[:size]` — by the
AEAD contract `open_length`, exactly the opened plaintext), the advanced
counter, and the rest of the source. -/
def readChunkI (A : AEAD) (ctr : List Nat) (s : List Nat) :
    Except RErr (List Nat × List Nat × List Nat) :=
  match readMessage A ctr (2 + A.overhead) s with
  | .error e => .error e
  | .ok (sizePt, ctr1, s1) =>
    let size := getBE16 sizePt &&& payloadSizeMask
    if payloadSizeMask + A.overhead < size + A.overhead then .error .shortBuf
    else
      match readMessage A ctr1 (size + A.overhead) s1 with
      | .error .eof => .error .unexpectedEof
      | .error e => .error e
      | .ok (pt, ctr2, s2) => .ok (pt, ctr2, s2)

/-- `shadowaead.Cipher`: salt size plus the AEAD derived from a salt.
`Encrypter` and `Decrypter` perform the same HKDF derivation, so a single
`aeadFor` serves both directions. -/
structure SSCipher where
  saltSize : Nat
  aeadFor : List Nat → AEAD

/-- `chunkReader.ReadChunk` through lazy `init`: read the salt with
`io.ReadFull` (EOF and ErrUnexpectedEOF pass through untouched), derive the
AEAD, zero the counter, then read one chunk. -/
def readChunkU (C : SSCipher) (s : List Nat) :
    Except RErr (List Nat × List Nat × List Nat) :=
  match readFull C.saltSize s with
  | .error e => .error e
  | .ok (salt, rest) =>
    readChunkI (C.aeadFor salt) (List.replicate (C.aeadFor salt).nonceSize 0) rest

/-- Repeatedly `ReadChunk` on an initialized reader, concatenating payloads,
until an error; returns the plaintext read and the terminating error.  `fuel`
bounds the recursion; a successful chunk consumes at least two source bytes,
so `s.length + 1` is always enough. -/
def readAllChunks (A : AEAD) : Nat → List Nat → List Nat → List Nat × RErr
  | 0, _, _ => ([], .eof)
  | fuel + 1, ctr, s =>
    match readChunkI A ctr s with
    | .error e => ([], e)
    | .ok (pt, ctr1, s1) =>
      let r := readAllChunks A fuel ctr1 s1
      (pt ++ r.1, r.2)

/-- The whole decrypt direction of `NewShadowsocksReader`: consume the salt,
then read chunks until the stream ends, returning all plaintext and the
final status (`RErr.eof` = clean close). -/
def decryptStream (C : SSCipher) (s : List Nat) : List Nat × RErr :=
  match readFull C.saltSize s with
  | .error e => ([], e)
  | .ok (salt, rest) =>
    readAllChunks (C.aeadFor salt) (rest.length + 1)
      (List.replicate (C.aeadFor salt).nonceSize 0) rest

/-- The toy cipher: 32-byte salts (as for chacha20-ietf-poly1305 and
aes-256-gcm), every salt deriving `toyAead`. -/
def toySS : SSCipher where
  saltSize := 32
  aeadFor := fun _ => toyAead

/-- The write modes of `shadowsocksWriter.write` (`modeNormal`, `modeLazy`,
`modeFlush`). -/
inductive Mode where
  | normal
  | lazy
  | flushing
deriving DecidableEq, Repr

/-- The observable state of a `shadowsocksWriter`.

`pending` is the plaintext currently buffered in `payloadBuf` (the Go code
stores the count `sw.pending`; the bytes themselves sit in `sw.buf`);
`counter` is the nonce counter byte string; `flushDone` is the state of the
`sw.flush` `sync.Once` latch (`true` = consumed).  `sink` records, in order,
the byte slices passed to the inner writer's `Write`.  The remaining fields
are pure observation traces used to state properties: `sealTrace` records
every nonce passed to `Seal`, `chunkTrace` the plaintext payload of every
emitted chunk, and `saltIncluded` whether each emitted chunk's sink write
began with the salt. -/
structure WState where
  pending : List Nat
  counter : List Nat
  flushDone : Bool
  sink : List (List Nat)
  sealTrace : List (List Nat)
  chunkTrace : List (List Nat)
  saltIncluded : List Bool
deriving DecidableEq, Repr

/-- The emission condition in `readFrom`'s loop:
`sw.pending == payloadSizeMask || (mode != modeLazy && sw.pending > 0)`. -/
def emitCond (mode : Mode) (pl : Nat) : Bool :=
  pl == payloadSizeMask || (mode != Mode.lazy && pl != 0)

/-- One chunk emission (`readFrom` lines 181–186): write the big-endian
length into the size slot, seal it (`encryptBlock` advances the counter
once), seal the pending payload (advancing it again), write
`buf[start : saltSize+len(sizeBuf)+payloadSize]` — salt included iff `start`
is 0 — to the sink, and reset `pending`. -/
def emitChunk (A : AEAD) (salt : List Nat) (saltNow : Bool) (st : WState) : WState :=
  let sizeSealed := A.Seal st.counter (be16 st.pending.length)
  let ctr1 := increment st.counter
  let payloadSealed := A.Seal ctr1 st.pending
  { pending := []
    counter := increment ctr1
    flushDone := st.flushDone
    sink := st.sink ++ [(if saltNow then salt else []) ++ sizeSealed ++ payloadSealed]
    sealTrace := st.sealTrace ++ [st.counter, ctr1]
    chunkTrace := st.chunkTrace ++ [st.pending]
    saltIncluded := st.saltIncluded ++ [saltNow] }

/-- The loop of `shadowsocksWriter.readFrom`.  The source is the list of
fragments successive `Read` calls deliver (a `bytes.Reader` delivers one
fragment, split whenever it exceeds the free buffer space); an exhausted
source reads as `(0, io.EOF)`, which (after a final emission check) ends the
loop.  Each iteration reads into `payloadBuf[pending:payloadSizeMask]`, so at
most `payloadSizeMask - pending` bytes; `saltNow` is Go's `start == 0`,
established from `isZero(sw.counter)` at call entry and cleared after every
emission.  `fuel` bounds the recursion and is always sufficient at the
call sites (see `fuelFor`). -/
def readFromGo (A : AEAD) (salt : List Nat) (mode : Mode) :
    Nat → List (List Nat) → WState → Bool → WState
  | 0, _, st, _ => st
  | _ + 1, [], st, saltNow =>
    if emitCond mode st.pending.length then emitChunk A salt saltNow st else st
  | fuel + 1, f :: rest, st, saltNow =>
    let space := payloadSizeMask - st.pending.length
    let taken := f.take space
    let rem := f.drop space
    let st1 := { st with pending := st.pending ++ taken }
    let frags1 := if rem.isEmpty then rest else rem :: rest
    if emitCond mode st1.pending.length then
      readFromGo A salt mode fuel frags1 (emitChunk A salt saltNow st1) false
    else
      readFromGo A salt mode fuel frags1 st1 saltNow

/-- An upper bound related to the loop's iteration count. -/
def sumMeasure (frags : List (List Nat)) : Nat :=
  frags.foldr (fun f a => f.length + 1 + a) 0

/-- Fuel that is always enough for `readFromGo` to run to completion. -/
def fuelFor (frags : List (List Nat)) : Nat := 2 * sumMeasure frags + 2

/-- `shadowsocksWriter.readFrom` (after `init`): compute `start` from
`isZero(sw.counter)` and run the loop. -/
def readFromTop (A : AEAD) (salt : List Nat) (mode : Mode)
    (frags : List (List Nat)) (st : WState) : WState :=
  readFromGo A salt mode (fuelFor frags) frags st (isZero st.counter)

/-- One public call on a `Writer`: `Write(p)` (via `byteWrapper`, mode
normal), `LazyWrite(p)` (resets the `sync.Once`, mode lazy), `Flush()`
(`sync.Once`-guarded write of nil in flush mode), or `ReadFrom(r)` with `r`
delivering the given fragments. -/
inductive Op where
  | write (p : List Nat)
  | lazyWrite (p : List Nat)
  | flushCall
  | readFrom (frags : List (List Nat))

/-- Whether the call is a `LazyWrite`. -/
def Op.isLazy : Op → Bool
  | .lazyWrite _ => true
  | _ => false

/-- Execute one call.  A normal write first consumes the `sync.Once`
(`sw.flush.Do(func(){})`); `LazyWrite` resets it (`sw.flush = sync.Once{}`);
`Flush` runs `write(nil, modeFlush)` only if the latch is unconsumed. -/
def runOp (A : AEAD) (salt : List Nat) (st : WState) : Op → WState
  | .write p => readFromTop A salt .normal [p] { st with flushDone := true }
  | .lazyWrite p => readFromTop A salt .lazy [p] { st with flushDone := false }
  | .flushCall =>
    if st.flushDone then st
    else readFromTop A salt .flushing [] { st with flushDone := true }
  | .readFrom frags => readFromTop A salt .normal frags { st with flushDone := true }

/-- Run a sequence of calls. -/
def runOps (A : AEAD) (salt : List Nat) (st : WState) (ops : List Op) : WState :=
  ops.foldl (runOp A salt) st

/-- A freshly created writer after `init`: empty buffer, zero counter,
undone latch, nothing written. -/
def W0 (A : AEAD) : WState :=
  { pending := []
    counter := List.replicate A.nonceSize 0
    flushDone := false
    sink := []
    sealTrace := []
    chunkTrace := []
    saltIncluded := [] }

/-- `CipherEntry` from cipher_list.go: constant `ID` (the cipher itself is
irrelevant to the list's behaviour) plus the mutable `lastClientIP`
annotation.  A `net.IP` is a byte slice; `none` is Go's nil slice. -/
structure CipherEntry where
  id : String
  lastClientIP : Option (List Nat)
deriving DecidableEq, Repr

/-- The IPv4-in-IPv6 header bytes used by `net.IP.Equal`. -/
def v4MappedHeader : List Nat := [0, 0, 0, 0, 0, 0, 0, 0, 0, 0, 255, 255]

/-- `net.IP.Equal` (Go standard library): bytewise equality at equal
lengths, with a 4-byte address equal to its 16-byte IPv4-mapped form. -/
def ipEqual (a b : List Nat) : Bool :=
  if a.length = b.length then a == b
  else if a.length = 4 ∧ b.length = 16 then
    b.take 12 == v4MappedHeader && b.drop 12 == a
  else if a.length = 16 ∧ b.length = 4 then
    a.take 12 == v4MappedHeader && a.drop 12 == b
  else false

/-- `matchesIP` from cipher_list.go:
`clientIP != nil && clientIP.Equal(c.lastClientIP)` (a nil `lastClientIP`
compares as a length-0 slice). -/
def matchesIP (e : CipherEntry) (clientIP : Option (List Nat)) : Bool :=
  match clientIP with
  | none => false
  | some ip => ipEqual ip (e.lastClientIP.getD [])

/-- The loop of `SafeSnapshotForClientIP`: walk the list front to back,
appending matching entries to `cipherArray` and the rest to
`remainingCiphers`, then concatenate. -/
def snapshotGo (clientIP : Option (List Nat)) :
    List CipherEntry → List CipherEntry → List CipherEntry → List CipherEntry
  | [], matched, remaining => matched ++ remaining
  | e :: rest, matched, remaining =>
    if matchesIP e clientIP then snapshotGo clientIP rest (matched ++ [e]) remaining
    else snapshotGo clientIP rest matched (remaining ++ [e])

/-- `cipherList.SafeSnapshotForClientIP`. -/
def safeSnapshotForClientIP (clientIP : Option (List Nat)) (l : List CipherEntry) :
    List CipherEntry :=
  snapshotGo clientIP l [] []

/-- `cipherList.SafeMarkUsedByClientIP`: move the element at position `i` to
the front and set its `lastClientIP`.  (Go identifies the entry by its
`*list.Element`; the model identifies it by its current position.) -/
def safeMarkUsedByClientIP (l : List CipherEntry) (i : Nat)
    (clientIP : Option (List Nat)) : List CipherEntry :=
  if h : i < l.length then
    { l.get ⟨i, h⟩ with lastClientIP := clientIP } :: l.eraseIdx i
  else l

/-- `cipherList.PushBack`: append a fresh entry (nil `lastClientIP`). -/
def pushBack (l : List CipherEntry) (id : String) : List CipherEntry :=
  l ++ [{ id := id, lastClientIP := none }]

/-- The chunking of a plaintext into maximal ≤ `payloadSizeMask` pieces, as
produced by a single bulk write.  `fuel`-structural; `fuel ≥ p.length` is
always enough. -/
def chunksOfMask : Nat → List Nat → List (List Nat)
  | 0, _ => []
  | _ + 1, [] => []
  | fuel + 1, p => p.take payloadSizeMask :: chunksOfMask fuel (p.drop payloadSizeMask)

/-- The chunks a single write of `p` produces. -/
def chunksOf (p : List Nat) : List (List Nat) := chunksOfMask p.length p

/-- `true` for the first of `n` chunks, `false` for the rest. -/
def saltFlags : Nat → List Bool
  | 0 => []
  | n + 1 => true :: List.replicate n false

/-- The expected sink writes for chunks `cs` starting at chunk index `k`,
given per-chunk salt flags: each write is
`(salt?) ++ Seal(nonce 2k, len_be16) ++ Seal(nonce 2k+1, payload)`. -/
def wireOf (A : AEAD) (salt : List Nat) :
    Nat → List Bool → List (List Nat) → List (List Nat)
  | _, [], _ => []
  | _, _, [] => []
  | k, b :: bs, c :: cs =>
    ((if b then salt else []) ++ A.Seal (natToLE A.nonceSize (2 * k)) (be16 c.length)
        ++ A.Seal (natToLE A.nonceSize (2 * k + 1)) c) :: wireOf A salt (k + 1) bs cs

/-- The flat encoding of chunks `cs` starting at chunk index `k` (no salt). -/
def encodeChunks (A : AEAD) : Nat → List (List Nat) → List Nat
  | _, [] => []
  | k, c :: cs =>
    A.Seal (natToLE A.nonceSize (2 * k)) (be16 c.length)
      ++ A.Seal (natToLE A.nonceSize (2 * k + 1)) c ++ encodeChunks A (k + 1) cs

/-- The whole encrypt direction: a fresh `NewShadowsocksWriter` (whose
`init` drew `salt`) with a single `Write(P)`; the wire is the concatenation
of the sink writes. -/
def encryptStream (C : SSCipher) (salt : List Nat) (P : List Nat) : List Nat :=
  ((runOps (C.aeadFor salt) salt (W0 (C.aeadFor salt)) [.write P]).sink).flatten

theorem emitChunk_flushDone (A : AEAD) (salt : List Nat) (saltNow : Bool) (st : WState) :
    (emitChunk A salt saltNow st).flushDone = st.flushDone := rfl

theorem readFromGo_flushDone (A : AEAD) (salt : List Nat) (mode : Mode) (fuel : Nat)
    (frags : List (List Nat)) (st : WState) (saltNow : Bool) :
    (readFromGo A salt mode fuel frags st saltNow).flushDone = st.flushDone := by
  induction fuel generalizing frags st saltNow with
  | zero => rfl
  | succ fuel ih =>
    cases frags with
    | nil =>
      simp only [readFromGo]
      split
      · rfl
      · rfl
    | cons f rest =>
      simp only [readFromGo]
      split
      · rw [ih]; rfl
      · rw [ih]

theorem readFromGo_chunkTrace_ext (A : AEAD) (salt : List Nat) (mode : Mode) (fuel : Nat)
    (frags : List (List Nat)) (st : WState) (saltNow : Bool) :
    ∃ t, (readFromGo A salt mode fuel frags st saltNow).chunkTrace = st.chunkTrace ++ t := by
  induction fuel generalizing frags st saltNow with
  | zero => exact ⟨[], by simp [readFromGo]⟩
  | succ fuel ih =>
    cases frags with
    | nil =>
      simp only [readFromGo]
      split
      · exact ⟨[st.pending], rfl⟩
      · exact ⟨[], by simp⟩
    | cons f rest =>
      simp only [readFromGo]
      split
      · obtain ⟨t, ht⟩ := ih _ _ false
        exact ⟨(st.pending ++ f.take (payloadSizeMask - st.pending.length)) :: t, by
          rw [ht]; simp [emitChunk]⟩
      · obtain ⟨t, ht⟩ := ih _ _ saltNow
        exact ⟨t, by rw [ht]⟩

/-- The invariant tying a writer state to its observation traces: the
counter encodes twice the number of emitted chunks, the seal nonces so far
are exactly `0, 1, …`, the buffered plaintext fits the payload buffer, every
emitted chunk was nonempty and within `payloadSizeMask`, and the sink
consists of the sealed wire images of the emitted chunks. -/
def GoodW (A : AEAD) (salt : List Nat) (st : WState) : Prop :=
  st.counter = natToLE A.nonceSize (2 * st.chunkTrace.length)
  ∧ st.sealTrace = (List.range (2 * st.chunkTrace.length)).map (natToLE A.nonceSize)
  ∧ st.pending.length ≤ payloadSizeMask
  ∧ (∀ c ∈ st.chunkTrace, 1 ≤ c.length ∧ c.length ≤ payloadSizeMask)
  ∧ st.saltIncluded.length = st.chunkTrace.length
  ∧ st.sink = wireOf A salt 0 st.saltIncluded st.chunkTrace

theorem wireOf_snoc (A : AEAD) (salt : List Nat) (k : Nat) (bs : List Bool)
    (cs : List (List Nat)) (b : Bool) (c : List Nat) (h : bs.length = cs.length) :
    wireOf A salt k (bs ++ [b]) (cs ++ [c]) =
      wireOf A salt k bs cs ++
        [(if b then salt else [])
          ++ A.Seal (natToLE A.nonceSize (2 * (k + cs.length))) (be16 c.length)
          ++ A.Seal (natToLE A.nonceSize (2 * (k + cs.length) + 1)) c] := by
  induction bs generalizing cs k with
  | nil =>
    obtain rfl : cs = [] := by
      cases cs with
      | nil => rfl
      | cons x xs => simp at h
    simp [wireOf]
  | cons b0 bs ih =>
    cases cs with
    | nil => simp at h
    | cons c0 cs =>
      simp only [List.cons_append, wireOf, List.length_cons]
      congr 1
      rw [show bs.append [b] = bs ++ [b] from rfl, show cs.append [c] = cs ++ [c] from rfl,
        ih (k + 1) cs (by simpa using h)]
      have harith : k + 1 + cs.length = k + (cs.length + 1) := by omega
      rw [harith]

theorem emitCond_of_pos (mode : Mode) (pl : Nat) (hm : mode ≠ Mode.lazy) (h : pl ≠ 0) :
    emitCond mode pl = true := by
  simp [emitCond, h, hm]

theorem emitCond_pos (mode : Mode) (pl : Nat) (h : emitCond mode pl = true) : 1 ≤ pl := by
  simp only [emitCond, Bool.or_eq_true, beq_iff_eq, Bool.and_eq_true, bne_iff_ne,
    ne_eq] at h
  rcases h with h | ⟨_, h⟩
  · subst h; norm_num [payloadSizeMask]
  · omega

theorem emitChunk_good (A : AEAD) (salt : List Nat) (saltNow : Bool) (st : WState)
    (hG : GoodW A salt st) (hpl : 1 ≤ st.pending.length) :
    GoodW A salt (emitChunk A salt saltNow st) := by
  obtain ⟨hc, hs, hp, hb, hl, hw⟩ := hG
  refine ⟨?_, ?_, ?_, ?_, ?_, ?_⟩
  · show increment (increment st.counter) = _
    rw [hc, increment_natToLE, increment_natToLE]
    congr 1
    simp [emitChunk]
    ring
  · show st.sealTrace ++ [st.counter, increment st.counter] = _
    rw [hc, increment_natToLE, hs]
    have h1 : 2 * (emitChunk A salt saltNow st).chunkTrace.length
        = 2 * st.chunkTrace.length + 1 + 1 := by
      simp [emitChunk]; ring
    rw [h1, List.range_succ, List.range_succ]
    simp
  · show ([] : List Nat).length ≤ payloadSizeMask
    simp
  · intro c hcmem
    have : c ∈ st.chunkTrace ++ [st.pending] := hcmem
    rcases List.mem_append.mp this with h1 | h1
    · exact hb c h1
    · obtain rfl : c = st.pending := by simpa using h1
      exact ⟨hpl, hp⟩
  · show (st.saltIncluded ++ [saltNow]).length = (st.chunkTrace ++ [st.pending]).length
    simp [hl]
  · show st.sink ++ [_] = wireOf A salt 0 (st.saltIncluded ++ [saltNow])
      (st.chunkTrace ++ [st.pending])
    rw [wireOf_snoc A salt 0 _ _ _ _ hl, ← hw, hc, increment_natToLE]
    simp

theorem readFromGo_good (A : AEAD) (salt : List Nat) (mode : Mode) (fuel : Nat)
    (frags : List (List Nat)) (st : WState) (saltNow : Bool) (hG : GoodW A salt st) :
    GoodW A salt (readFromGo A salt mode fuel frags st saltNow) := by
  induction fuel generalizing frags st saltNow with
  | zero => exact hG
  | succ fuel ih =>
    cases frags with
    | nil =>
      simp only [readFromGo]
      split
      · next hcond => exact emitChunk_good A salt saltNow st hG (emitCond_pos _ _ hcond)
      · exact hG
    | cons f rest =>
      simp only [readFromGo]
      have hst1 : GoodW A salt
          { st with pending := st.pending ++ f.take (payloadSizeMask - st.pending.length) } := by
        obtain ⟨hc, hs, hp, hb, hl, hw⟩ := hG
        refine ⟨hc, hs, ?_, hb, hl, hw⟩
        simp only [List.length_append, List.length_take]
        omega
      split
      · next hcond =>
        exact ih _ _ false (emitChunk_good A salt saltNow _ hst1 (emitCond_pos _ _ hcond))
      · exact ih _ _ saltNow hst1

theorem GoodW_setFlush (A : AEAD) (salt : List Nat) (st : WState) (b : Bool)
    (hG : GoodW A salt st) : GoodW A salt { st with flushDone := b } := hG

theorem runOp_good (A : AEAD) (salt : List Nat) (st : WState) (o : Op)
    (hG : GoodW A salt st) : GoodW A salt (runOp A salt st o) := by
  cases o with
  | write p => exact readFromGo_good A salt _ _ _ _ _ (GoodW_setFlush A salt st true hG)
  | lazyWrite p => exact readFromGo_good A salt _ _ _ _ _ (GoodW_setFlush A salt st false hG)
  | flushCall =>
    simp only [runOp]
    split
    · exact hG
    · exact readFromGo_good A salt _ _ _ _ _ (GoodW_setFlush A salt st true hG)
  | readFrom frags => exact readFromGo_good A salt _ _ _ _ _ (GoodW_setFlush A salt st true hG)

theorem runOps_good (A : AEAD) (salt : List Nat) (st : WState) (ops : List Op)
    (hG : GoodW A salt st) : GoodW A salt (runOps A salt st ops) := by
  induction ops generalizing st with
  | nil => exact hG
  | cons o ops ih => exact ih _ (runOp_good A salt st o hG)

theorem GoodW_W0 (A : AEAD) (salt : List Nat) : GoodW A salt (W0 A) := by
  refine ⟨?_, ?_, ?_, ?_, ?_, ?_⟩ <;> simp [W0, natToLE_zero, wireOf]

theorem runOps_append_op (A : AEAD) (salt : List Nat) (st : WState) (ops : List Op)
    (o : Op) : runOps A salt st (ops ++ [o]) = runOp A salt (runOps A salt st ops) o := by
  simp [runOps]

theorem saltFlags_snoc (n : Nat) : saltFlags n ++ [n == 0] = saltFlags (n + 1) := by
  cases n with
  | zero => simp [saltFlags]
  | succ n => simp [saltFlags, List.replicate_succ']

theorem readFromGo_saltInv (A : AEAD) (salt : List Nat) (mode : Mode) (fuel : Nat)
    (frags : List (List Nat)) (st : WState) (saltNow : Bool)
    (h1 : saltNow = (st.chunkTrace.length == 0))
    (h2 : st.saltIncluded = saltFlags st.chunkTrace.length) :
    (readFromGo A salt mode fuel frags st saltNow).saltIncluded
      = saltFlags (readFromGo A salt mode fuel frags st saltNow).chunkTrace.length := by
  induction fuel generalizing frags st saltNow with
  | zero => exact h2
  | succ fuel ih =>
    cases frags with
    | nil =>
      simp only [readFromGo]
      split
      · show st.saltIncluded ++ [saltNow] = saltFlags (st.chunkTrace ++ [st.pending]).length
        rw [h1, h2, saltFlags_snoc]
        simp
      · exact h2
    | cons f rest =>
      simp only [readFromGo]
      split
      · refine ih _ _ false ?_ ?_
        · simp [emitChunk]
        · simp only [emitChunk, List.length_append, List.length_cons, List.length_nil]
          rw [h1, h2, saltFlags_snoc]
      · exact ih _ _ saltNow h1 h2

theorem isZero_counter_eq (A : AEAD) (salt : List Nat) (st : WState)
    (hG : GoodW A salt st)
    (hb : 2 * st.chunkTrace.length < 2 ^ (8 * A.nonceSize)) :
    isZero st.counter = (st.chunkTrace.length == 0) := by
  rw [hG.1]
  by_cases hn : st.chunkTrace.length = 0
  · rw [hn]
    rw [(isZero_natToLE A.nonceSize 0).mpr (by simp)]
    simp
  · have hz : ¬ isZero (natToLE A.nonceSize (2 * st.chunkTrace.length)) = true := by
      rw [isZero_natToLE, Nat.mod_eq_of_lt hb]
      omega
    rw [Bool.not_eq_true] at hz
    rw [hz]
    symm
    simpa using hn

theorem runOp_saltInv (A : AEAD) (salt : List Nat) (st : WState) (o : Op)
    (hG : GoodW A salt st)
    (h2 : st.saltIncluded = saltFlags st.chunkTrace.length)
    (hb : 2 * st.chunkTrace.length < 2 ^ (8 * A.nonceSize)) :
    (runOp A salt st o).saltIncluded = saltFlags (runOp A salt st o).chunkTrace.length := by
  have hiz := isZero_counter_eq A salt st hG hb
  cases o with
  | write p => exact readFromGo_saltInv A salt .normal _ _ _ _ hiz h2
  | lazyWrite p => exact readFromGo_saltInv A salt .lazy _ _ _ _ hiz h2
  | flushCall =>
    simp only [runOp]
    split
    · exact h2
    · exact readFromGo_saltInv A salt .flushing _ _ _ _ hiz h2
  | readFrom frags => exact readFromGo_saltInv A salt .normal _ _ _ _ hiz h2

theorem runOp_count_mono (A : AEAD) (salt : List Nat) (st : WState) (o : Op) :
    st.chunkTrace.length ≤ (runOp A salt st o).chunkTrace.length := by
  cases o with
  | write p =>
    obtain ⟨t, ht⟩ := readFromGo_chunkTrace_ext A salt .normal (fuelFor [p]) [p]
      { st with flushDone := true } (isZero st.counter)
    simp [runOp, readFromTop, ht]
  | lazyWrite p =>
    obtain ⟨t, ht⟩ := readFromGo_chunkTrace_ext A salt .lazy (fuelFor [p]) [p]
      { st with flushDone := false } (isZero st.counter)
    simp [runOp, readFromTop, ht]
  | flushCall =>
    simp only [runOp]
    split
    · exact Nat.le_refl _
    · obtain ⟨t, ht⟩ := readFromGo_chunkTrace_ext A salt .flushing (fuelFor []) []
        { st with flushDone := true } (isZero st.counter)
      simp [readFromTop, ht]
  | readFrom frags =>
    obtain ⟨t, ht⟩ := readFromGo_chunkTrace_ext A salt .normal (fuelFor frags) frags
      { st with flushDone := true } (isZero st.counter)
    simp [runOp, readFromTop, ht]

theorem runOps_saltInv (A : AEAD) (salt : List Nat) (ops : List Op)
    (hb : 2 * (runOps A salt (W0 A) ops).chunkTrace.length < 2 ^ (8 * A.nonceSize)) :
    (runOps A salt (W0 A) ops).saltIncluded
      = saltFlags (runOps A salt (W0 A) ops).chunkTrace.length := by
  induction ops using List.reverseRecOn with
  | nil => simp [runOps, W0, saltFlags]
  | append_singleton ops o ih =>
    rw [runOps_append_op] at hb ⊢
    have hmono := runOp_count_mono A salt (runOps A salt (W0 A) ops) o
    exact runOp_saltInv A salt _ o
      (runOps_good A salt _ ops (GoodW_W0 A salt)) (ih (by omega)) (by omega)

/-- **C4.** Every chunk emitted by the encrypting writer, across any sequence
of `Write`, `LazyWrite`, `ReadFrom` and `Flush` calls, has a payload length
between 1 and 16383 (`payloadSizeMask`) inclusive, and the plaintext 16-bit
big-endian length field always has its top two bits zero (its high byte is
below 64); the writer never emits a zero-length chunk to the sink. -/
theorem chunk_size_discipline (A : AEAD) (salt : List Nat) (ops : List Op)
    (c : List Nat) (hc : c ∈ (runOps A salt (W0 A) ops).chunkTrace) :
    1 ≤ c.length ∧ c.length ≤ payloadSizeMask ∧ (be16 c.length).headD 0 < 64 := by
  have hG := runOps_good A salt (W0 A) ops (GoodW_W0 A salt)
  obtain ⟨h1, h2⟩ := hG.2.2.2.1 c hc
  refine ⟨h1, h2, ?_⟩
  simp only [be16, List.headD_cons]
  have h3 : c.length ≤ 16383 := by simpa [payloadSizeMask] using h2
  omega

/-- Witness for C4 at a concrete call sequence. -/
theorem chunk_size_discipline_witness :
    1 ≤ ([5] : List Nat).length ∧ ([5] : List Nat).length ≤ payloadSizeMask
      ∧ (be16 ([5] : List Nat).length).headD 0 < 64 :=
  chunk_size_discipline toyAead [] [.write [5]] [5] (by decide)

/-- **C5.** The writer's nonce is a little-endian counter starting at zero,
incremented by exactly one per AEAD seal (so two per emitted chunk): across
any legal sequence of write calls (any `Op` sequence), as long as the nonce
space is not exhausted, the numeric values of the nonces presented to the
sealer are exactly `0, 1, 2, …` — strictly increasing with step 1, starting
at 0 — and their number is twice the number of emitted chunks.  (The
underlying counter update is the byte-string `increment`, which wraps
silently on overflow: see `increment_natToLE` and `natToLE_mod`.) -/
theorem nonce_sequence (A : AEAD) (salt : List Nat) (ops : List Op)
    (hb : (runOps A salt (W0 A) ops).sealTrace.length ≤ 2 ^ (8 * A.nonceSize)) :
    (runOps A salt (W0 A) ops).sealTrace.map toNatLE
        = List.range (runOps A salt (W0 A) ops).sealTrace.length
      ∧ (runOps A salt (W0 A) ops).sealTrace.length
        = 2 * (runOps A salt (W0 A) ops).chunkTrace.length := by
  have hG := runOps_good A salt (W0 A) ops (GoodW_W0 A salt)
  have hlen : (runOps A salt (W0 A) ops).sealTrace.length
      = 2 * (runOps A salt (W0 A) ops).chunkTrace.length := by
    rw [hG.2.1]
    simp
  refine ⟨?_, hlen⟩
  rw [hlen] at hb
  conv_lhs => rw [hG.2.1]
  rw [List.map_map, hlen]
  have hmap : ∀ x ∈ List.range (2 * (runOps A salt (W0 A) ops).chunkTrace.length),
      (toNatLE ∘ natToLE A.nonceSize) x = id x := by
    intro x hx
    rw [List.mem_range] at hx
    simp only [Function.comp_apply, toNatLE_natToLE, id_eq]
    exact Nat.mod_eq_of_lt (by omega)
  rw [List.map_congr_left hmap, List.map_id]

/-- Witness for C5 at a concrete call sequence. -/
theorem nonce_sequence_witness :
    (runOps toyAead [] (W0 toyAead) [.write [9]]).sealTrace.map toNatLE
        = List.range (runOps toyAead [] (W0 toyAead) [.write [9]]).sealTrace.length
      ∧ (runOps toyAead [] (W0 toyAead) [.write [9]]).sealTrace.length
        = 2 * (runOps toyAead [] (W0 toyAead) [.write [9]]).chunkTrace.length :=
  nonce_sequence toyAead [] [.write [9]] (by decide)

/-- **C6.** Across any call sequence (while the nonce space is not
exhausted), the sink writes are exactly the wire images of the emitted
chunks with salt flags `true, false, false, …` (`saltFlags`): the first sink
write is `salt ++ Seal(nonce 0, len) ++ Seal(nonce 1, payload)` — the salt
is coalesced into the same single sink write as the first emitted chunk and
appears exactly once — and every later sink write is
`[] ++ Seal(nonce 2i, len) ++ Seal(nonce 2i+1, payload)`, i.e. begins at the
sealed length block and skips the salt region. -/
theorem salt_coalescing (A : AEAD) (salt : List Nat) (ops : List Op)
    (hb : 2 * (runOps A salt (W0 A) ops).chunkTrace.length < 2 ^ (8 * A.nonceSize)) :
    (runOps A salt (W0 A) ops).sink
      = wireOf A salt 0 (saltFlags (runOps A salt (W0 A) ops).chunkTrace.length)
          (runOps A salt (W0 A) ops).chunkTrace := by
  have hG := runOps_good A salt (W0 A) ops (GoodW_W0 A salt)
  rw [hG.2.2.2.2.2, runOps_saltInv A salt ops hb]

/-- Witness for C6 at a concrete call sequence (two writes, two chunks). -/
theorem salt_coalescing_witness :
    (runOps toyAead [8, 8] (W0 toyAead) [.write [4], .write [6]]).sink
      = wireOf toyAead [8, 8] 0
          (saltFlags (runOps toyAead [8, 8] (W0 toyAead)
            [.write [4], .write [6]]).chunkTrace.length)
          (runOps toyAead [8, 8] (W0 toyAead) [.write [4], .write [6]]).chunkTrace :=
  salt_coalescing toyAead [8, 8] [.write [4], .write [6]] (by decide)

/-- **C8.** Flush emits pending lazy bytes at most once: after any call that
is not a `LazyWrite` — a `Flush` (which emits them) or a normal
`Write`/`ReadFrom` (which absorbs them) — an immediately following `Flush`
is a complete no-op: the writer state, in particular the sink, is unchanged
(the `sync.Once` latch is consumed, so `write(nil, modeFlush)` never runs). -/
theorem double_flush_noop (A : AEAD) (salt : List Nat) (ops : List Op) (o : Op)
    (ho : o.isLazy = false) :
    runOps A salt (W0 A) (ops ++ [o, .flushCall]) = runOps A salt (W0 A) (ops ++ [o]) := by
  have h1 : ∀ st : WState, (runOp A salt st o).flushDone = true := by
    intro st
    cases o with
    | write p =>
      have h := readFromGo_flushDone A salt .normal (fuelFor [p]) [p]
        { st with flushDone := true } (isZero st.counter)
      simpa [runOp, readFromTop] using h
    | lazyWrite p => simp [Op.isLazy] at ho
    | flushCall =>
      simp only [runOp]
      split
      · next h => exact h
      · have h := readFromGo_flushDone A salt .flushing (fuelFor []) []
          { st with flushDone := true } (isZero st.counter)
        simpa [readFromTop] using h
    | readFrom frags =>
      have h := readFromGo_flushDone A salt .normal (fuelFor frags) frags
        { st with flushDone := true } (isZero st.counter)
      simpa [runOp, readFromTop] using h
  have h2 : runOps A salt (W0 A) (ops ++ [o, .flushCall])
      = runOp A salt (runOps A salt (W0 A) (ops ++ [o])) .flushCall := by
    simp [runOps]
  have h3 : ∀ st : WState, st.flushDone = true → runOp A salt st .flushCall = st := by
    intro st hd
    show (if st.flushDone = true then st else _) = st
    rw [if_pos hd]
  rw [h2, runOps_append_op]
  exact h3 _ (h1 (runOps A salt (W0 A) ops))

/-- Witness for C8: a write followed by a flush equals the write alone. -/
theorem double_flush_noop_witness :
    runOps toyAead [] (W0 toyAead) [Op.write [3], Op.flushCall]
      = runOps toyAead [] (W0 toyAead) [Op.write [3]] :=
  double_flush_noop toyAead [] [] (Op.write [3]) (by decide)

theorem emitCond_lazy (pl : Nat) (h : pl ≠ payloadSizeMask) :
    emitCond Mode.lazy pl = false := by
  simp [emitCond, h]

/-- **C7 (amended).** `LazyWrite(p)` only buffers `p` in the pending slot and
performs no write to the underlying sink *provided the buffer does not fill*:
whenever the buffered bytes plus `p` stay below `payloadSizeMask`, the call
leaves every observable field unchanged except that `p` is appended to the
pending buffer and the flush latch is re-armed.  (When the buffer reaches
`payloadSizeMask` bytes, `LazyWrite` does emit a chunk — see the
counterexample `lazy_write_fills_counterexample`.) -/
theorem lazy_write_buffers (A : AEAD) (salt : List Nat) (st : WState) (p : List Nat)
    (hroom : st.pending.length + p.length < payloadSizeMask) :
    runOp A salt st (.lazyWrite p)
      = { st with pending := st.pending ++ p, flushDone := false } := by
  show readFromGo A salt .lazy (fuelFor [p]) [p] { st with flushDone := false }
      (isZero st.counter) = _
  obtain ⟨f, hf⟩ : ∃ f, fuelFor [p] = f + 2 :=
    ⟨2 * sumMeasure [p], by simp [fuelFor]⟩
  rw [hf]
  have hspace : p.length ≤ payloadSizeMask - st.pending.length := by omega
  have htake : p.take (payloadSizeMask - st.pending.length) = p :=
    List.take_of_length_le hspace
  have hdrop : p.drop (payloadSizeMask - st.pending.length) = [] :=
    List.drop_of_length_le hspace
  have hcond : emitCond Mode.lazy (st.pending ++ p).length = false := by
    apply emitCond_lazy
    simp only [List.length_append]
    omega
  simp only [readFromGo, htake, hdrop, List.isEmpty_nil, if_true, hcond,
    Bool.false_eq_true, if_false]


/-- A `LazyWrite` that fills the empty buffer to exactly `payloadSizeMask`
bytes emits one full chunk during the call. -/
theorem readFromGo_lazy_fill (A : AEAD) (salt : List Nat) (f : Nat) (p : List Nat)
    (ctr : List Nat) (fd : Bool) (sk sealT chunkT : List (List Nat)) (saltI : List Bool)
    (sn : Bool) (hlen : p.length = payloadSizeMask) :
    readFromGo A salt .lazy (f + 2) [p] ⟨[], ctr, fd, sk, sealT, chunkT, saltI⟩ sn
      = emitChunk A salt sn ⟨p, ctr, fd, sk, sealT, chunkT, saltI⟩ := by
  have h1 : p.take payloadSizeMask = p := List.take_of_length_le (by omega)
  have h2 : p.drop payloadSizeMask = [] := List.drop_of_length_le (by omega)
  have hc : emitCond Mode.lazy payloadSizeMask = true := by simp [emitCond]
  simp only [readFromGo, List.length_nil, Nat.sub_zero, h1, h2, List.nil_append,
    List.isEmpty_nil, if_true, hlen, hc]
  simp [emitChunk, emitCond, payloadSizeMask]

/-- Counterexample to C7 as stated: from a fresh writer, a single
`LazyWrite` of exactly `payloadSizeMask` (16383) bytes performs one write to
the underlying sink: the buffer fills, so the chunk is emitted during the
`LazyWrite` itself, before any `Flush` or non-lazy write. -/
theorem lazy_write_fills_counterexample :
    (runOp toyAead [] (W0 toyAead)
        (.lazyWrite (List.replicate payloadSizeMask 0))).sink.length = 1 := by
  have hf : fuelFor [List.replicate payloadSizeMask 0] = 2 * payloadSizeMask + 2 + 2 := by
    simp [fuelFor, sumMeasure]
    omega
  show (readFromGo toyAead [] .lazy (fuelFor [List.replicate payloadSizeMask 0])
      [List.replicate payloadSizeMask 0]
      ⟨[], List.replicate 12 0, false, [], [], [], []⟩
      (isZero (List.replicate 12 0))).sink.length = 1
  rw [hf, readFromGo_lazy_fill toyAead [] (2 * payloadSizeMask + 2)
    (List.replicate payloadSizeMask 0) (List.replicate 12 0) false [] [] [] []
    (isZero (List.replicate 12 0)) (by simp)]
  simp [emitChunk]

/-- Witness for the amended C7: a small `LazyWrite` only buffers. -/
theorem lazy_write_buffers_witness :
    runOp toyAead [] (W0 toyAead) (.lazyWrite [1, 2])
      = { W0 toyAead with pending := [1, 2], flushDone := false } :=
  lazy_write_buffers toyAead [] (W0 toyAead) [1, 2] (by decide)

theorem snapshotGo_eq (ip : Option (List Nat)) (l m r : List CipherEntry) :
    snapshotGo ip l m r
      = (m ++ l.filter (fun e => matchesIP e ip))
        ++ (r ++ l.filter (fun e => !matchesIP e ip)) := by
  induction l generalizing m r with
  | nil => simp [snapshotGo]
  | cons e rest ih =>
    simp only [snapshotGo]
    split
    · next h => rw [ih]; simp [List.filter_cons, h]
    · next h =>
      rw [ih]
      simp only [Bool.not_eq_true] at h
      simp [List.filter_cons, h]

theorem safeSnapshot_eq (ip : Option (List Nat)) (l : List CipherEntry) :
    safeSnapshotForClientIP ip l
      = l.filter (fun e => matchesIP e ip) ++ l.filter (fun e => !matchesIP e ip) := by
  rw [safeSnapshotForClientIP, snapshotGo_eq]
  simp

theorem ipEqual_refl (a : List Nat) : ipEqual a a = true := by
  simp [ipEqual]

/-- **C9.** For every registry state and non-nil client IP,
`SafeSnapshotForClientIP ip` returns each live entry exactly once (the
snapshot is a permutation of the list), with the entries matching `ip` first
in their current relative order followed by all other entries in their
current order (the snapshot is `filter matching ++ filter non-matching`);
and after `SafeMarkUsedByClientIP e ip`, the next
`SafeSnapshotForClientIP ip` places `e` (now carrying `lastClientIP = ip`)
first. -/
theorem snapshot_spec (l : List CipherEntry) (ip : List Nat) (i : Nat)
    (h : i < l.length) :
    (safeSnapshotForClientIP (some ip) l).Perm l
    ∧ safeSnapshotForClientIP (some ip) l
        = l.filter (fun e => matchesIP e (some ip))
          ++ l.filter (fun e => !matchesIP e (some ip))
    ∧ (safeSnapshotForClientIP (some ip) (safeMarkUsedByClientIP l i (some ip))).head?
        = some { l.get ⟨i, h⟩ with lastClientIP := some ip } := by
  refine ⟨?_, safeSnapshot_eq (some ip) l, ?_⟩
  · rw [safeSnapshot_eq]
    exact List.filter_append_perm _ l
  · rw [safeMarkUsedByClientIP, dif_pos h, safeSnapshot_eq]
    have hm : (fun e => matchesIP e (some ip))
        { l.get ⟨i, h⟩ with lastClientIP := some ip } = true := by
      simp [matchesIP, ipEqual_refl]
    rw [@List.filter_cons_of_pos CipherEntry (fun e => matchesIP e (some ip))
      { l.get ⟨i, h⟩ with lastClientIP := some ip } (l.eraseIdx i) hm, List.cons_append]
    rfl

/-- Witness for C9 at a concrete registry: after marking entry 1 as used by
an IP, the snapshot for that IP places it first. -/
theorem snapshot_spec_witness :
    (safeSnapshotForClientIP (some [1, 2, 3, 4])
        (safeMarkUsedByClientIP
          [{ id := "a", lastClientIP := none }, { id := "b", lastClientIP := none }]
          1 (some [1, 2, 3, 4]))).head?
      = some { id := "b", lastClientIP := some [1, 2, 3, 4] } :=
  (snapshot_spec
    [{ id := "a", lastClientIP := none }, { id := "b", lastClientIP := none }]
    [1, 2, 3, 4] 1 (by decide)).2.2

/-- **C10.** `SafeSnapshotForClientIP nil` returns all entries exactly once
in the list's current order with no affinity reordering: a nil client IP
never matches any entry (`matchesIP` short-circuits on the nil check), even
entries whose `lastClientIP` is still unset, so freshly pushed entries are
not promoted to the front of a nil-IP snapshot. -/
theorem snapshot_nil_ip (l : List CipherEntry) :
    safeSnapshotForClientIP none l = l
      ∧ ∀ id, safeSnapshotForClientIP none (pushBack l id) = l ++ [⟨id, none⟩] := by
  have hbase : ∀ l2 : List CipherEntry, safeSnapshotForClientIP none l2 = l2 := by
    intro l2
    rw [safeSnapshot_eq]
    simp [matchesIP]
  exact ⟨hbase l, fun id => hbase (pushBack l id)⟩

instance decEqExcept {α β : Type} [DecidableEq α] [DecidableEq β] :
    DecidableEq (Except α β)
  | .error a, .error b => decidable_of_iff (a = b) (by simp)
  | .error _, .ok _ => isFalse (by simp)
  | .ok _, .error _ => isFalse (by simp)
  | .ok a, .ok b => decidable_of_iff (a = b) (by simp)

/-- Reading a sealed message of exactly the requested length from the front
of the source opens to the plaintext and advances the counter. -/
theorem readMessage_seal (A : AEAD) (ctr m rest : List Nat) :
    readMessage A ctr (A.Seal ctr m).length (A.Seal ctr m ++ rest)
      = .ok (m, increment ctr, rest) := by
  rw [readMessage, readFull, if_pos (by simp)]
  simp only [List.take_left, List.drop_left, A.open_seal]

/-- The reader accepts *any* sealed length value `L`: it masks the 16-bit
value with `payloadSizeMask` (clearing the top two bits) and uses the result
as the payload size, with no validation — neither `L = 0` nor set top bits
are rejected. -/
theorem readChunkI_accepts (A : AEAD) (ctr : List Nat) (L : Nat) (payload rest : List Nat)
    (hL : L < 65536) (hlen : payload.length = L &&& payloadSizeMask) :
    readChunkI A ctr (A.Seal ctr (be16 L) ++ (A.Seal (increment ctr) payload ++ rest))
      = .ok (payload, increment (increment ctr), rest) := by
  rw [readChunkI]
  have h1 : (2 + A.overhead) = (A.Seal ctr (be16 L)).length := by
    rw [A.seal_length]
    simp [be16]
  rw [h1]
  simp only [readMessage_seal]
  have hsize : getBE16 (be16 L) &&& payloadSizeMask ≤ payloadSizeMask := by
    rw [getBE16_be16 L hL, land_mask]
    simp [payloadSizeMask]
    omega
  rw [if_neg (by omega)]
  have h2 : (getBE16 (be16 L) &&& payloadSizeMask) + A.overhead
      = (A.Seal (increment ctr) payload).length := by
    rw [A.seal_length, hlen, getBE16_be16 L hL]
  rw [h2]
  simp only [readMessage_seal]

/-- **C2 (amended).** On the decrypt path, after opening the 2-byte length
block, the reader does not require `L ∈ [1, 16383]`: it computes
`size = L &&& payloadSizeMask`, silently clearing the top two bits of the
16-bit length, and accepts the chunk for any `L` — including `L = 0` and
values with the top two bits set — provided the payload message carries
exactly `size` bytes.  No length validation is performed. -/
theorem length_field_masked_not_validated (A : AEAD) (ctr : List Nat) (L : Nat)
    (payload : List Nat) (hL : L < 65536)
    (hlen : payload.length = L &&& payloadSizeMask) :
    readChunkI A ctr (A.Seal ctr (be16 L) ++ (A.Seal (increment ctr) payload ++ []))
      = .ok (payload, increment (increment ctr), []) :=
  readChunkI_accepts A ctr L payload [] hL hlen

/-- Witness for the amended C2: the zero length `L = 0` (forbidden by the
spec) is accepted, yielding an empty payload. -/
theorem length_field_masked_not_validated_witness :
    readChunkI toyAead (List.replicate 12 0)
        (toyAead.Seal (List.replicate 12 0) (be16 0)
          ++ (toyAead.Seal (increment (List.replicate 12 0)) [] ++ []))
      = .ok ([], increment (increment (List.replicate 12 0)), []) :=
  length_field_masked_not_validated toyAead (List.replicate 12 0) 0 [] (by decide)
    (by decide)

/-- Counterexample to C2 as stated: a chunk whose decrypted 16-bit length
field is `0x4001` — top bit set, so outside `[1, 16383]` — is accepted by
`ReadChunk` (the mask turns it into length 1), not rejected. -/
theorem length_top_bits_accepted_counterexample :
    getBE16 [64, 1] &&& 0xC000 ≠ 0
    ∧ readChunkI toyAead (List.replicate 12 0)
        (([64, 1] ++ List.replicate 16 0) ++ ([7] ++ List.replicate 16 0))
      = .ok ([7], increment (increment (List.replicate 12 0)), []) := by
  constructor
  · decide
  · decide

theorem readMessage_eof_iff (A : AEAD) (ctr : List Nat) (n : Nat) (s : List Nat)
    (hn : 0 < n) : readMessage A ctr n s = .error .eof ↔ s = [] := by
  rw [readMessage, readFull]
  by_cases h1 : n ≤ s.length
  · have hs : s ≠ [] := by
      intro h0
      rw [h0] at h1
      simp at h1
      omega
    rw [if_pos h1]
    cases hopen : A.Open ctr (s.take n) <;> simp [hopen, hs]
  · rw [if_neg h1]
    by_cases h2 : s.length = 0
    · rw [if_pos h2]
      simp [List.eq_nil_of_length_eq_zero h2]
    · rw [if_neg h2]
      have hs : s ≠ [] := by
        intro h0
        rw [h0] at h2
        simp at h2
      simp [hs]

theorem readChunkI_eof_iff (A : AEAD) (ctr s : List Nat) :
    readChunkI A ctr s = .error .eof ↔ s = [] := by
  have hpos : 0 < 2 + A.overhead := by omega
  rw [readChunkI]
  cases hm : readMessage A ctr (2 + A.overhead) s with
  | error e =>
    cases e with
    | eof =>
      exact ⟨fun _ => (readMessage_eof_iff A ctr _ s hpos).mp hm, fun _ => rfl⟩
    | unexpectedEof =>
      have hs : s ≠ [] := by
        intro h0
        subst h0
        rw [(readMessage_eof_iff A ctr _ ([] : List Nat) hpos).mpr rfl] at hm
        simp at hm
      simp [hs]
    | decryptFailed =>
      have hs : s ≠ [] := by
        intro h0
        subst h0
        rw [(readMessage_eof_iff A ctr _ ([] : List Nat) hpos).mpr rfl] at hm
        simp at hm
      simp [hs]
    | shortBuf =>
      have hs : s ≠ [] := by
        intro h0
        subst h0
        rw [(readMessage_eof_iff A ctr _ ([] : List Nat) hpos).mpr rfl] at hm
        simp at hm
      simp [hs]
  | ok val =>
    obtain ⟨pt, ctr1, s1⟩ := val
    have hs : s ≠ [] := by
      intro h0
      subst h0
      rw [(readMessage_eof_iff A ctr _ ([] : List Nat) hpos).mpr rfl] at hm
      simp at hm
    simp only []
    constructor
    · intro h
      exfalso
      split at h
      · simp at h
      · cases hm2 : readMessage A ctr1 ((getBE16 pt &&& payloadSizeMask) + A.overhead) s1 with
        | error e2 => cases e2 <;> rw [hm2] at h <;> simp at h
        | ok v2 =>
          obtain ⟨a, b, c⟩ := v2
          rw [hm2] at h
          simp at h
    · intro h0
      exact absurd h0 hs

theorem readChunkU_eof_iff (C : SSCipher) (s : List Nat) :
    readChunkU C s = .error .eof ↔ (s = [] ∨ s.length = C.saltSize) := by
  rw [readChunkU, readFull]
  by_cases h1 : C.saltSize ≤ s.length
  · rw [if_pos h1]
    simp only []
    rw [readChunkI_eof_iff]
    constructor
    · intro h
      right
      have hlen := congrArg List.length h
      simp [List.length_drop] at hlen
      omega
    · intro h
      rcases h with h | h
      · subst h
        simp
      · rw [List.drop_eq_nil_iff]
        omega
  · rw [if_neg h1]
    by_cases h2 : s.length = 0
    · rw [if_pos h2]
      simp [List.eq_nil_of_length_eq_zero h2]
    · rw [if_neg h2]
      constructor
      · intro h
        simp at h
      · intro h
        rcases h with h | h
        · subst h
          simp at h2
        · omega

/-- **C3.** The decrypt stream reports a clean end-of-stream (`io.EOF`) only
when the underlying stream ends exactly on a chunk boundary, or before any
byte of the salt:

1. on an uninitialized reader, `ReadChunk` yields `io.EOF` iff the stream is
   empty or ends exactly after the salt;
2. on an initialized reader, `ReadChunk` yields `io.EOF` iff the remaining
   stream is empty (a chunk boundary);
3. an EOF mid-salt surfaces as `io.ErrUnexpectedEOF`;
4. an EOF mid-length-block surfaces as `io.ErrUnexpectedEOF`;
5. an EOF mid-payload (after a successfully opened length block whose masked
   size exceeds the remaining bytes) surfaces as `io.ErrUnexpectedEOF` —
   never a clean EOF. -/
theorem clean_eof_only_at_chunk_boundary :
    (∀ (C : SSCipher) (s : List Nat),
        readChunkU C s = .error .eof ↔ (s = [] ∨ s.length = C.saltSize))
    ∧ (∀ (A : AEAD) (ctr s : List Nat),
        readChunkI A ctr s = .error .eof ↔ s = [])
    ∧ (∀ (C : SSCipher) (s : List Nat), 0 < s.length → s.length < C.saltSize →
        readChunkU C s = .error .unexpectedEof)
    ∧ (∀ (A : AEAD) (ctr s : List Nat), 0 < s.length → s.length < 2 + A.overhead →
        readChunkI A ctr s = .error .unexpectedEof)
    ∧ (∀ (A : AEAD) (ctr s pt ctr1 s1 : List Nat),
        readMessage A ctr (2 + A.overhead) s = .ok (pt, ctr1, s1) →
        s1.length < (getBE16 pt &&& payloadSizeMask) + A.overhead →
        readChunkI A ctr s = .error .unexpectedEof) := by
  refine ⟨readChunkU_eof_iff, readChunkI_eof_iff, ?_, ?_, ?_⟩
  · intro C s h1 h2
    rw [readChunkU, readFull, if_neg (by omega), if_neg (by omega)]
  · intro A ctr s h1 h2
    rw [readChunkI, readMessage, readFull, if_neg (by omega), if_neg (by omega)]
  · intro A ctr s pt ctr1 s1 hm hlt
    rw [readChunkI, hm]
    simp only []
    have hsize : (getBE16 pt &&& payloadSizeMask) ≤ payloadSizeMask := by
      rw [land_mask]
      have := Nat.mod_lt (getBE16 pt) (y := 16384) (by omega)
      simp [payloadSizeMask]
      omega
    rw [if_neg (by omega), readMessage, readFull, if_neg (by omega)]
    by_cases h0 : s1.length = 0
    · rw [if_pos h0]
    · rw [if_neg h0]

/-- Witness for C3 at concrete inputs: a 3-byte stream (shorter than the
32-byte salt) is an unexpected EOF; an empty stream on an initialized reader
is a clean EOF. -/
theorem clean_eof_witness :
    readChunkU toySS [1, 2, 3] = .error .unexpectedEof
    ∧ readChunkI toyAead (List.replicate 12 0) [] = .error .eof :=
  ⟨clean_eof_only_at_chunk_boundary.2.2.1 toySS [1, 2, 3] (by decide) (by decide),
   (clean_eof_only_at_chunk_boundary.2.1 toyAead (List.replicate 12 0) []).mpr rfl⟩

theorem chunksOfMask_irrel (f1 : Nat) :
    ∀ (f2 : Nat) (p : List Nat), p.length ≤ f1 → p.length ≤ f2 →
      chunksOfMask f1 p = chunksOfMask f2 p := by
  induction f1 with
  | zero =>
    intro f2 p h1 h2
    obtain rfl : p = [] := List.eq_nil_of_length_eq_zero (by omega)
    cases f2 <;> rfl
  | succ f1 ih =>
    intro f2 p h1 h2
    cases p with
    | nil => cases f2 <;> rfl
    | cons x xs =>
      obtain ⟨f2', rfl⟩ : ∃ f2', f2 = f2' + 1 := ⟨f2 - 1, by simp at h2; omega⟩
      show (x :: xs).take payloadSizeMask :: chunksOfMask f1 ((x :: xs).drop payloadSizeMask)
        = (x :: xs).take payloadSizeMask :: chunksOfMask f2' ((x :: xs).drop payloadSizeMask)
      have hd : ((x :: xs).drop payloadSizeMask).length ≤ (x :: xs).length - 1 := by
        simp [List.length_drop, payloadSizeMask]
      rw [ih f2' _ (by simp at h1 hd ⊢; omega) (by simp at h2 hd ⊢; omega)]

theorem chunksOf_cons (p : List Nat) (hp : p ≠ []) :
    chunksOf p = p.take payloadSizeMask :: chunksOf (p.drop payloadSizeMask) := by
  rw [chunksOf, chunksOf]
  obtain ⟨x, xs, rfl⟩ : ∃ x xs, p = x :: xs := by
    cases p with
    | nil => exact absurd rfl hp
    | cons x xs => exact ⟨x, xs, rfl⟩
  show (x :: xs).take payloadSizeMask :: chunksOfMask (x :: xs).length.pred
      ((x :: xs).drop payloadSizeMask) = _
  congr 1
  apply chunksOfMask_irrel
  · simp [List.length_drop, payloadSizeMask]
  · simp [List.length_drop]

theorem chunksOf_flatten (p : List Nat) : (chunksOf p).flatten = p := by
  have key : ∀ (n : Nat) (q : List Nat), q.length ≤ n → (chunksOf q).flatten = q := by
    intro n
    induction n with
    | zero =>
      intro q hq
      obtain rfl : q = [] := List.eq_nil_of_length_eq_zero (by omega)
      rfl
    | succ n ih =>
      intro q hq
      by_cases hq0 : q = []
      · subst hq0; rfl
      · rw [chunksOf_cons q hq0]
        simp only [List.flatten_cons]
        rw [ih (q.drop payloadSizeMask) (by
          simp [List.length_drop, payloadSizeMask]
          have : 1 ≤ q.length := by
            cases q with
            | nil => exact absurd rfl hq0
            | cons _ _ => simp
          omega)]
        exact List.take_append_drop _ q
  exact key p.length p (Nat.le_refl _)

theorem chunksOf_length_le (p : List Nat) : (chunksOf p).length ≤ p.length := by
  have key : ∀ (n : Nat) (q : List Nat), q.length ≤ n → (chunksOf q).length ≤ q.length := by
    intro n
    induction n with
    | zero =>
      intro q hq
      obtain rfl : q = [] := List.eq_nil_of_length_eq_zero (by omega)
      simp [chunksOf, chunksOfMask]
    | succ n ih =>
      intro q hq
      by_cases hq0 : q = []
      · subst hq0; simp [chunksOf, chunksOfMask]
      · rw [chunksOf_cons q hq0]
        have h1 : 1 ≤ q.length := by
          cases q with
          | nil => exact absurd rfl hq0
          | cons _ _ => simp
        have h2 := ih (q.drop payloadSizeMask) (by
          simp [List.length_drop, payloadSizeMask]
          omega)
        simp only [List.length_cons]
        simp [List.length_drop, payloadSizeMask] at h2 ⊢
        omega
  exact key p.length p (Nat.le_refl _)

/-- A single normal bulk write of `p` from an empty buffer emits exactly the
maximal chunking of `p`. -/
theorem readFromGo_write_chunks (A : AEAD) (salt : List Nat) (fuel : Nat) :
    ∀ (p : List Nat) (st : WState) (sn : Bool), p.length + 2 ≤ fuel →
      st.pending = [] →
      (readFromGo A salt .normal fuel [p] st sn).chunkTrace
        = st.chunkTrace ++ chunksOf p := by
  induction fuel with
  | zero => intro p st sn hfuel; omega
  | succ fuel ih =>
    intro p st sn hfuel hpend
    by_cases hp : p = []
    · subst hp
      simp only [readFromGo, List.take_nil, List.drop_nil, List.isEmpty_nil, if_true]
      rw [if_neg (by simp [emitCond, hpend, payloadSizeMask])]
      obtain ⟨f, rfl⟩ : ∃ f, fuel = f + 1 := ⟨fuel - 1, by omega⟩
      simp only [readFromGo]
      rw [if_neg (by simp [emitCond, hpend, payloadSizeMask])]
      simp [chunksOf, chunksOfMask]
    · have h1 : 1 ≤ p.length := by
        cases p with
        | nil => exact absurd rfl hp
        | cons _ _ => simp
      have hsp : payloadSizeMask - st.pending.length = payloadSizeMask := by
        rw [hpend]; rfl
      have hcond : emitCond Mode.normal (st.pending ++ p.take payloadSizeMask).length
          = true := by
        apply emitCond_of_pos _ _ (by simp)
        rw [hpend, List.nil_append, List.length_take]
        have hm : payloadSizeMask = 16383 := rfl
        omega
      simp only [readFromGo, hsp, hcond, if_true]
      by_cases hle : p.length ≤ payloadSizeMask
      · have htake : p.take payloadSizeMask = p := List.take_of_length_le hle
        have hdrop : p.drop payloadSizeMask = [] := List.drop_of_length_le hle
        rw [hdrop]
        simp only [List.isEmpty_nil, if_true]
        obtain ⟨f, rfl⟩ : ∃ f, fuel = f + 1 := ⟨fuel - 1, by omega⟩
        simp only [readFromGo]
        rw [if_neg (by simp [emitCond, emitChunk, payloadSizeMask])]
        rw [chunksOf_cons p hp, htake, hdrop]
        simp [emitChunk, hpend, chunksOf, chunksOfMask]
      · have hdrop : ¬ (p.drop payloadSizeMask).isEmpty = true := by
          simp [List.isEmpty_iff, List.drop_eq_nil_iff]
          omega
        rw [if_neg hdrop]
        rw [ih (p.drop payloadSizeMask) _ false
          (by
            have hmask : payloadSizeMask = 16383 := rfl
            simp only [List.length_drop]
            omega)
          (by simp [emitChunk])]
        rw [chunksOf_cons p hp]
        simp [emitChunk, hpend]

theorem wireOf_flatten_noSalt (A : AEAD) (salt : List Nat) (cs : List (List Nat)) :
    ∀ k, (wireOf A salt k (List.replicate cs.length false) cs).flatten
      = encodeChunks A k cs := by
  induction cs with
  | nil => intro k; rfl
  | cons c cs ih =>
    intro k
    show ((([] : List Nat) ++ _ ++ _) :: wireOf A salt (k + 1) (List.replicate cs.length false) cs).flatten = _
    simp only [List.flatten_cons, ih (k + 1), List.nil_append, encodeChunks,
      List.append_assoc]

theorem sink_flatten (A : AEAD) (salt : List Nat) (cs : List (List Nat)) (hcs : cs ≠ []) :
    (wireOf A salt 0 (saltFlags cs.length) cs).flatten = salt ++ encodeChunks A 0 cs := by
  cases cs with
  | nil => exact absurd rfl hcs
  | cons c cs =>
    show ((salt ++ _ ++ _) :: wireOf A salt 1 (List.replicate cs.length false) cs).flatten = _
    simp only [List.flatten_cons, wireOf_flatten_noSalt A salt cs 1, encodeChunks,
      List.append_assoc]

theorem encodeChunks_length_ge (A : AEAD) (cs : List (List Nat)) :
    ∀ k, cs.length ≤ (encodeChunks A k cs).length := by
  induction cs with
  | nil => intro k; simp [encodeChunks]
  | cons c cs ih =>
    intro k
    simp only [encodeChunks, List.length_cons, List.length_append, A.seal_length, be16]
    have := ih (k + 1)
    simp at this ⊢
    omega

theorem readAllChunks_encode (A : AEAD) (cs : List (List Nat)) :
    ∀ (k fuel : Nat), (∀ c ∈ cs, c.length ≤ payloadSizeMask) →
      cs.length + 1 ≤ fuel →
      readAllChunks A fuel (natToLE A.nonceSize (2 * k)) (encodeChunks A k cs)
        = (cs.flatten, .eof) := by
  induction cs with
  | nil =>
    intro k fuel _ hfuel
    obtain ⟨f, rfl⟩ : ∃ f, fuel = f + 1 := ⟨fuel - 1, by omega⟩
    show (match readChunkI A (natToLE A.nonceSize (2 * k)) [] with
      | .error e => (([] : List Nat), e)
      | .ok (pt, ctr1, s1) => _) = _
    rw [(readChunkI_eof_iff A _ []).mpr rfl]
    rfl
  | cons c cs ih =>
    intro k fuel hb hfuel
    obtain ⟨f, rfl⟩ : ∃ f, fuel = f + 1 := ⟨fuel - 1, by omega⟩
    have hcb : c.length ≤ payloadSizeMask := hb c (by simp)
    have hL : c.length < 65536 := by
      have hm : payloadSizeMask = 16383 := rfl
      omega
    have hlen : c.length = c.length &&& payloadSizeMask := by
      rw [land_mask]
      have hm : payloadSizeMask = 16383 := rfl
      omega
    have hacc := readChunkI_accepts A (natToLE A.nonceSize (2 * k)) c.length c
      (encodeChunks A (k + 1) cs) hL hlen
    rw [increment_natToLE] at hacc
    show (match readChunkI A (natToLE A.nonceSize (2 * k)) (encodeChunks A k (c :: cs)) with
      | .error e => (([] : List Nat), e)
      | .ok (pt, ctr1, s1) =>
        let r := readAllChunks A f ctr1 s1
        (pt ++ r.1, r.2)) = _
    rw [show encodeChunks A k (c :: cs)
        = A.Seal (natToLE A.nonceSize (2 * k)) (be16 c.length)
          ++ (A.Seal (natToLE A.nonceSize (2 * k + 1)) c ++ encodeChunks A (k + 1) cs)
      from by simp [encodeChunks]]
    rw [hacc, increment_natToLE]
    have h2k : 2 * k + 1 + 1 = 2 * (k + 1) := by ring
    rw [h2k]
    change (c ++ (readAllChunks A f (natToLE A.nonceSize (2 * (k + 1)))
          (encodeChunks A (k + 1) cs)).1,
        (readAllChunks A f (natToLE A.nonceSize (2 * (k + 1)))
          (encodeChunks A (k + 1) cs)).2)
      = ((c :: cs).flatten, RErr.eof)
    rw [ih (k + 1) f (fun x hx => hb x (by simp [hx])) (by simp at hfuel; omega)]
    simp

/-- **C1.** Round-trip: for every plaintext `P` with `|P| ≤ 10 MiB` and
every supported AEAD cipher (all supported ciphers have 12-byte nonces),
writing `P` through a fresh `NewShadowsocksWriter` and reading the produced
wire bytes back through a fresh `NewShadowsocksReader` with the same cipher
yields exactly `P`, byte for byte, ending in a clean EOF. -/
theorem roundtrip (C : SSCipher) (salt P : List Nat) (hsalt : salt.length = C.saltSize)
    (hns : (C.aeadFor salt).nonceSize = 12) (hP : P.length ≤ 10 * 1024 * 1024) :
    decryptStream C (encryptStream C salt P) = (P, .eof) := by
  have hG := runOps_good (C.aeadFor salt) salt (W0 (C.aeadFor salt)) [Op.write P]
    (GoodW_W0 (C.aeadFor salt) salt)
  have hchunks : (runOps (C.aeadFor salt) salt (W0 (C.aeadFor salt))
      [Op.write P]).chunkTrace = chunksOf P := by
    show (readFromGo (C.aeadFor salt) salt .normal (fuelFor [P]) [P]
      { W0 (C.aeadFor salt) with flushDone := true }
      (isZero (W0 (C.aeadFor salt)).counter)).chunkTrace = chunksOf P
    rw [readFromGo_write_chunks (C.aeadFor salt) salt (fuelFor [P]) P
      { W0 (C.aeadFor salt) with flushDone := true }
      (isZero (W0 (C.aeadFor salt)).counter)
      (by simp [fuelFor, sumMeasure]; omega) rfl]
    simp [W0]
  have hbound : 2 * (runOps (C.aeadFor salt) salt (W0 (C.aeadFor salt))
      [Op.write P]).chunkTrace.length < 2 ^ (8 * (C.aeadFor salt).nonceSize) := by
    rw [hchunks, hns]
    have h1 := chunksOf_length_le P
    have hpow : (2 : Nat) ^ (8 * 12) = 79228162514264337593543950336 := by norm_num
    omega
  have hsink : (runOps (C.aeadFor salt) salt (W0 (C.aeadFor salt)) [Op.write P]).sink
      = wireOf (C.aeadFor salt) salt 0 (saltFlags (chunksOf P).length) (chunksOf P) := by
    rw [hG.2.2.2.2.2, runOps_saltInv (C.aeadFor salt) salt [Op.write P] hbound, hchunks]
  have henc : encryptStream C salt P
      = (wireOf (C.aeadFor salt) salt 0 (saltFlags (chunksOf P).length)
          (chunksOf P)).flatten := by
    rw [encryptStream, hsink]
  by_cases hPnil : P = []
  · subst hPnil
    have hcs : chunksOf ([] : List Nat) = [] := rfl
    rw [henc, hcs]
    show decryptStream C [] = ([], .eof)
    rw [decryptStream, readFull]
    by_cases hz : C.saltSize ≤ ([] : List Nat).length
    · rw [if_pos hz]
      simp only [List.take_nil, List.drop_nil, List.length_nil]
      show (match readChunkI (C.aeadFor []) (List.replicate (C.aeadFor []).nonceSize 0) []
          with
        | .error e => (([] : List Nat), e)
        | .ok (pt, ctr1, s1) =>
          let r := readAllChunks (C.aeadFor []) 0 ctr1 s1
          (pt ++ r.1, r.2)) = ([], .eof)
      rw [(readChunkI_eof_iff _ _ []).mpr rfl]
    · rw [if_neg hz, if_pos (by simp)]
  · have hcs : chunksOf P ≠ [] := by
      rw [chunksOf_cons P hPnil]
      simp
    rw [henc, sink_flatten (C.aeadFor salt) salt (chunksOf P) hcs]
    rw [decryptStream, readFull,
      if_pos (show C.saltSize ≤ (salt ++ encodeChunks (C.aeadFor salt) 0
        (chunksOf P)).length by rw [← hsalt]; simp)]
    rw [List.take_left' hsalt, List.drop_left' hsalt]
    have hz : List.replicate (C.aeadFor salt).nonceSize 0
        = natToLE (C.aeadFor salt).nonceSize (2 * 0) := by
      rw [← natToLE_zero]
    change readAllChunks (C.aeadFor salt)
        ((encodeChunks (C.aeadFor salt) 0 (chunksOf P)).length + 1)
        (List.replicate (C.aeadFor salt).nonceSize 0)
        (encodeChunks (C.aeadFor salt) 0 (chunksOf P)) = (P, RErr.eof)
    rw [hz]
    rw [readAllChunks_encode (C.aeadFor salt) (chunksOf P) 0 _
      (fun c hc => (hG.2.2.2.1 c (by rw [hchunks]; exact hc)).2)
      (by have := encodeChunks_length_ge (C.aeadFor salt) (chunksOf P) 0; omega)]
    rw [chunksOf_flatten]

/-- Witness for C1: a concrete 3-byte round-trip through the toy cipher. -/
theorem roundtrip_witness :
    decryptStream toySS (encryptStream toySS (List.replicate 32 0) [1, 2, 3])
      = ([1, 2, 3], .eof) :=
  roundtrip toySS (List.replicate 32 0) [1, 2, 3] (by decide) (by decide) (by decide)
